import Mathlib

/-
Shallow embedding of github.com/alecthomas/app (Go).

The repository contains two generations of the package in `app.go`:
  * the first (`RunWithArgs` at lines 120-176) takes an entry-point module,
    has no dependency resolution, binds `SelectedCommand` right after
    parsing, and runs a reverse-order `Stop` loop over the installed
    modules after the entry point returns;
  * the second (`Install` at 288-304, `RunWithArgs` at 316-358,
    `topoSortModules` at 361-401) resolves declared module dependencies
    topologically, binds `SelectedCommand` after the start phase, and has
    no stop loop.

Module identity in Go is `reflect.Type`; we model identities as `Nat`.
`Install` guarantees installed identities are distinct, so working at the
identity level loses nothing (the Go resolver itself converts modules to
types immediately and converts back through the `installed` map).

Go map iteration order is unspecified (and randomized), so every function
that iterates a map is parameterised by a `schedule`: for each peel pass,
a preference list of identities; `mkOrder` turns it into the actual
visiting order over the keys currently present.  Every permutation of the
current keys is realisable by a schedule, and every schedule yields a
full pass over the current keys, exactly as a Go `range` over the map
does (the algorithm only ever deletes the node currently being visited,
so in-pass deletions never hide other keys).
-/

namespace AppModel

abbrev Ty := Nat

/-- Dependency graph: association list from module identity to the list of
identities of its declared dependencies (`graphUnsorted` in the Go code). -/
abbrev Graph := List (Ty × List Ty)

def keysOf (g : Graph) : List Ty := g.map Prod.fst

/-- Lookup in the association list, mirroring Go map indexing. -/
def lookupG : Graph → Ty → Option (List Ty)
  | [], _ => none
  | (k, v) :: g, t => if k = t then some v else lookupG g t

/-- Delete a key, mirroring Go `delete(graphUnsorted, node)` (keys are unique). -/
def eraseKey : Graph → Ty → Graph
  | [], _ => []
  | (k, v) :: g, t => if k = t then g else (k, v) :: eraseKey g t

/-- Errors produced by the resolver, one constructor per `fmt.Errorf` in
`topoSortModules`.  `notAvailable dep node` mirrors
`"module %s is not available to %s"` (carries the two identities the format
string interpolates); `cyclic` mirrors `"cyclic module dependency"` (the
format string interpolates nothing).  `fuelExhausted` is the value of the
termination-fuel device; it is proved unreachable for the fuel
`topoSortModules` supplies. -/
inductive Err where
  | notAvailable (dep node : Ty)
  | cyclic
  | fuelExhausted
  deriving DecidableEq, Repr

/-- Identities interpolated into the error message, read off the Go format
strings: two for `notAvailable`, none for `cyclic`. -/
def errNames : Err → List Ty
  | .notAvailable d n => [d, n]
  | .cyclic => []
  | .fuelExhausted => []

/-- The inner edge scan of `topoSortModules`:
for each edge, error if the edge is not installed, otherwise stop with
`found = true` if the edge is still in the unsorted graph. -/
def scanEdges (inst : List Ty) (g : Graph) (node : Ty) : List Ty → Except Err Bool
  | [] => .ok false
  | e :: es =>
    if e ∈ inst then
      if (lookupG g e).isSome then .ok true
      else scanEdges inst g node es
    else .error (.notAvailable e node)

/-- One pass of the peel: visit the nodes of `order` in turn; a node none of
whose edges are missing or still unsorted is deleted and appended to
`sorted`, setting the `acyclic` flag.  Nodes already deleted are skipped
(Go `range` does not produce deleted entries). -/
def runPass (inst : List Ty) :
    List Ty → Graph → List Ty → Bool → Except Err (Graph × List Ty × Bool)
  | [], g, sorted, ac => .ok (g, sorted, ac)
  | n :: rest, g, sorted, ac =>
    match lookupG g n with
    | none => runPass inst rest g sorted ac
    | some edges =>
      match scanEdges inst g n edges with
      | .error e => .error e
      | .ok true => runPass inst rest g sorted ac
      | .ok false => runPass inst rest (eraseKey g n) (sorted ++ [n]) true

/-- Visiting order of one Go map-range pass: the schedule's preference list
(restricted to current keys, de-duplicated) followed by the remaining
current keys.  Every permutation of the current keys arises from some
preference list, and every preference list yields each current key exactly
once. -/
def mkOrder (pref keys : List Ty) : List Ty :=
  pref.dedup.filter (fun t => decide (t ∈ keys)) ++
    keys.filter (fun t => decide (t ∉ pref))

/-- The outer `for len(graphUnsorted) != 0` loop of `topoSortModules`,
with structural fuel (each pass that does not fail removes at least one
node — see `runPass_shrink` — so the `g.length` passes supplied by
`topoSortModules` always suffice, and the `fuelExhausted` branch is dead
in every development below). -/
def sortLoop (inst : List Ty) :
    Nat → Graph → List Ty → List (List Ty) → Except Err (List Ty)
  | _, [], sorted, _ => .ok sorted
  | 0, _ :: _, _, _ => .error .fuelExhausted
  | fuel + 1, g@(_ :: _), sorted, sched =>
    match runPass inst (mkOrder sched.headI (keysOf g)) g sorted false with
    | .error e => .error e
    | .ok (g', sorted', ac) =>
      if ac then sortLoop inst fuel g' sorted' sched.tail
      else .error .cyclic

/-- `topoSortModules` (app.go 361-401) at the identity level: `inst` is the
`installed` map's key set, the graph itself is `graphUnsorted`. -/
def topoSortModules (g : Graph) (sched : List (List Ty)) : Except Err (List Ty) :=
  sortLoop (keysOf g) g.length g [] sched

/-! ### Module model and lifecycle traces -/

/-- Abstract behaviour of one Go module value: its concrete type (identity),
whether it implements each optional interface, and the outcome its
`Configure`/`Start` methods would report.  `stopOk` is the outcome of its
`Stop` method; the Go code discards that value (`// Don't check for
errors`), so no definition below reads it. -/
structure Mod where
  ty : Ty
  hasDeps : Bool
  deps : List Ty
  hasConfigure : Bool
  configureOk : Bool
  hasStart : Bool
  startOk : Bool
  hasStop : Bool
  stopOk : Bool
  deriving DecidableEq, Repr

/-- Observable capability invocations, in program order. -/
inductive Event where
  | depsCalled (t : Ty)
  | injInstall (t : Ty)
  | configure (t : Ty)
  | parse
  | bindCommand
  | start (t : Ty)
  | runApp
  | stop (t : Ty)
  deriving DecidableEq, Repr

/-- Result of a run, one constructor per `return` path. -/
inductive Res where
  | ok
  | noStart
  | configureErr (t : Ty)
  | parseErr
  | startErr (t : Ty)
  | runErr
  | resolveErr (e : Err)
  deriving DecidableEq, Repr

/-- Configure loop of the first-generation `RunWithArgs` (app.go 133-145):
`injector.Install`, then `Configure` when the module implements
`Configurable`, aborting on the first configure error.  Returns the trace
and the identity of the failing module, if any. -/
def configPhase1 : List Mod → List Event × Option Ty
  | [] => ([], none)
  | m :: ms =>
    if m.hasConfigure then
      if m.configureOk then
        let r := configPhase1 ms
        ([.injInstall m.ty, .configure m.ty] ++ r.1, r.2)
      else ([.injInstall m.ty, .configure m.ty], some m.ty)
    else
      let r := configPhase1 ms
      (.injInstall m.ty :: r.1, r.2)

/-- Configure loop of the second-generation `RunWithArgs` (app.go 329-336):
every module has `Configure` (it is the `Module` interface method). -/
def configPhase2 : List Mod → List Event × Option Ty
  | [] => ([], none)
  | m :: ms =>
    if m.configureOk then
      let r := configPhase2 ms
      ([.injInstall m.ty, .configure m.ty] ++ r.1, r.2)
    else ([.injInstall m.ty, .configure m.ty], some m.ty)

/-- Start loop (app.go 155-163 and 343-351): call `Start` where present,
returning on the first error. -/
def startPhase : List Mod → List Event × Option Ty
  | [] => ([], none)
  | m :: ms =>
    if m.hasStart then
      if m.startOk then
        let r := startPhase ms
        (.start m.ty :: r.1, r.2)
      else ([.start m.ty], some m.ty)
    else startPhase ms

/-- Stop loop (app.go 167-174): iterate the installed modules in reverse,
invoking `Stop` where present; the call's result is discarded. -/
def stopPhase (ms : List Mod) : List Event :=
  (ms.reverse.filter (·.hasStop)).map (fun m => Event.stop m.ty)

/-- First-generation `RunWithArgs(args, module)` (app.go 120-176).
`parseOk` abstracts the kingpin `Parse` outcome; the entry point's own
result is its `Start` outcome. -/
def RunWithArgs1 (installed : List Mod) (entry : Mod) (parseOk : Bool) :
    List Event × Res :=
  if entry.hasStart then
    let c := configPhase1 (installed ++ [entry])
    match c.2 with
    | some t => (c.1, .configureErr t)
    | none =>
      if parseOk then
        let s := startPhase installed
        match s.2 with
        | some t => (c.1 ++ [.parse, .bindCommand] ++ s.1, .startErr t)
        | none =>
          (c.1 ++ [.parse, .bindCommand] ++ s.1 ++ [.runApp] ++ stopPhase installed,
           if entry.startOk then .ok else .runErr)
      else (c.1 ++ [.parse], .parseErr)
  else ([], .noStart)

/-- The second-generation registry: each installed module together with the
dependency list recorded for it at install time (`a.modules`). -/
abbrev Registry := List (Mod × List Ty)

/-- `Install` (app.go 288-304): for each module, panic if a module of the
same concrete type is already present, otherwise query `Dependencies()`
when the module declares any and record the pair.  The `Except` error is
the panicking type; the trace records the capability invocations made. -/
def Install : Registry → List Mod → List Event × Except Ty Registry
  | reg, [] => ([], .ok reg)
  | reg, m :: ms =>
    if m.ty ∈ reg.map (fun p => p.1.ty) then ([], .error m.ty)
    else
      let ds := if m.hasDeps then m.deps else []
      let ev : List Event := if m.hasDeps then [.depsCalled m.ty] else []
      let r := Install (reg ++ [(m, ds)]) ms
      (ev ++ r.1, r.2)

/-- The dependency graph the second-generation `RunWithArgs` hands to
`topoSortModules`. -/
def registryGraph (reg : Registry) : Graph := reg.map (fun p => (p.1.ty, p.2))

/-- The module values in resolved order: each identity of the resolver's
output is mapped back through the registry (`installed[node]` in Go). -/
def resolvedMods (reg : Registry) (order : List Ty) : List Mod :=
  order.filterMap (fun t => (reg.find? (fun p => p.1.ty == t)).map Prod.fst)

/-- Second-generation `RunWithArgs(args, run)` (app.go 316-358): resolve,
configure in resolved order, parse, start in resolved order, then bind
`SelectedCommand` and call the run function.  There is no stop loop. -/
def RunWithArgs2 (reg : Registry) (sched : List (List Ty))
    (parseOk runOk : Bool) : List Event × Res :=
  match topoSortModules (registryGraph reg) sched with
  | .error e => ([], .resolveErr e)
  | .ok order =>
    let mods := resolvedMods reg order
    let c := configPhase2 mods
    match c.2 with
    | some t => (c.1, .configureErr t)
    | none =>
      if parseOk then
        let s := startPhase mods
        match s.2 with
        | some t => (c.1 ++ [.parse] ++ s.1, .startErr t)
        | none =>
          (c.1 ++ [.parse] ++ s.1 ++ [.bindCommand, .runApp],
           if runOk then .ok else .runErr)
      else (c.1 ++ [.parse], .parseErr)

end AppModel

namespace AppModel

/-! ### Predicates used to state the claims -/

/-- Dependency completeness: every declared dependency identity is installed. -/
def Complete (g : Graph) : Prop := ∀ p ∈ g, ∀ d ∈ p.2, d ∈ keysOf g

/-- Acyclicity of the dependency graph, as existence of a topological rank:
every declared dependency has strictly smaller rank than its dependent.
For a finite graph this is the standard characterisation of a DAG. -/
def AcyclicRank (g : Graph) : Prop :=
  ∃ r : Ty → Nat, ∀ p ∈ g, ∀ d ∈ p.2, r d < r p.1

/-- `a` appears strictly before `b` in `l`. -/
def Precedes (l : List Ty) (a b : Ty) : Prop :=
  ∃ l1 l2 l3, l = l1 ++ a :: (l2 ++ b :: l3)

/-- Dependency edge of the graph: `b` is among the declared dependencies
of `a`. -/
def edgeG (g : Graph) (a b : Ty) : Prop := b ∈ (lookupG g a).getD []

/-- The graph contains a dependency cycle `t → … → t`. -/
def HasCycle (g : Graph) : Prop := ∃ t ts, List.Chain (edgeG g) t (ts ++ [t])

def isStop : Event → Bool
  | .stop _ => true
  | _ => false

def isStart : Event → Bool
  | .start _ => true
  | _ => false

def isDepsCalled : Event → Bool
  | .depsCalled _ => true
  | _ => false

/-- No `start` event occurs before the first `bindCommand` event. -/
def noStartBeforeBind (tr : List Event) : Bool :=
  (tr.takeWhile (fun e => !(e == Event.bindCommand))).all (fun e => !(isStart e))

/-- The registry entries `Install` records for a module list. -/
def recordedOf (ms : List Mod) : Registry :=
  ms.map (fun m => (m, if m.hasDeps then m.deps else []))

/-! ### Concrete modules used by counterexamples and witnesses -/

def modOk : Mod :=
  { ty := 0, hasDeps := false, deps := [], hasConfigure := false,
    configureOk := true, hasStart := true, startOk := true, hasStop := true,
    stopOk := true }

def modStartFail : Mod := { modOk with ty := 1, startOk := false }

def modEntry : Mod := { modOk with ty := 2, hasStop := false, hasConfigure := true }

def modWithDeps : Mod := { modOk with ty := 3, hasDeps := true, deps := [0] }

/-! ### Trace-shape lemmas for the lifecycle phases -/

def isConfigEvent : Event → Bool
  | .injInstall _ => true
  | .configure _ => true
  | _ => false

theorem configPhase1_shape (ms : List Mod) :
    (configPhase1 ms).1.all isConfigEvent = true := by
  induction ms with
  | nil => rfl
  | cons m ms ih =>
    simp only [configPhase1]
    split
    · split
      · simp [List.all_append, isConfigEvent, ih]
      · simp [isConfigEvent]
    · simp [isConfigEvent, ih]

theorem configPhase2_shape (ms : List Mod) :
    (configPhase2 ms).1.all isConfigEvent = true := by
  induction ms with
  | nil => rfl
  | cons m ms ih =>
    simp only [configPhase2]
    split
    · simp [List.all_append, isConfigEvent, ih]
    · simp [isConfigEvent]

theorem startPhase_shape (ms : List Mod) :
    (startPhase ms).1.all isStart = true := by
  induction ms with
  | nil => rfl
  | cons m ms ih =>
    simp only [startPhase]
    split
    · split
      · simp [isStart, ih]
      · simp [isStart]
    · exact ih

theorem stopPhase_shape (ms : List Mod) :
    (stopPhase ms).all isStop = true := by
  simp only [stopPhase, List.all_eq_true]
  intro e he
  rcases List.mem_map.mp he with ⟨m, _, rfl⟩
  rfl

theorem Install_shape (ms : List Mod) :
    ∀ reg, (Install reg ms).1.all isDepsCalled = true := by
  induction ms with
  | nil => intro reg; rfl
  | cons m ms ih =>
    intro reg
    simp only [Install]
    split
    · rfl
    · split
      · simp [List.all_append, isDepsCalled, ih]
      · simp [ih]

theorem mem_of_all_eq_true {p : Event → Bool} {l : List Event} (h : l.all p = true)
    {e : Event} (he : e ∈ l) : p e = true :=
  List.all_eq_true.mp h e he

theorem stop_not_mem_of_config {ms : List Mod} (t : Ty) :
    Event.stop t ∉ (configPhase1 ms).1 := by
  intro h
  have := mem_of_all_eq_true (configPhase1_shape ms) h
  simp [isConfigEvent] at this

theorem stop_not_mem_of_start {ms : List Mod} (t : Ty) :
    Event.stop t ∉ (startPhase ms).1 := by
  intro h
  have := mem_of_all_eq_true (startPhase_shape ms) h
  simp [isStart] at this

theorem runApp_not_mem_of_config {ms : List Mod} :
    Event.runApp ∉ (configPhase1 ms).1 := by
  intro h
  have := mem_of_all_eq_true (configPhase1_shape ms) h
  simp [isConfigEvent] at this

theorem runApp_not_mem_of_start {ms : List Mod} :
    Event.runApp ∉ (startPhase ms).1 := by
  intro h
  have := mem_of_all_eq_true (startPhase_shape ms) h
  simp [isStart] at this

theorem stopPhase_mem_ty {ms : List Mod} {t : Ty} (h : Event.stop t ∈ stopPhase ms) :
    t ∈ ms.map (fun m => m.ty) := by
  simp only [stopPhase, List.mem_map, List.mem_filter, List.mem_reverse] at h
  rcases h with ⟨m, ⟨hm, _⟩, he⟩
  cases he
  exact List.mem_map.mpr ⟨m, hm, rfl⟩

theorem filter_eq_nil_of_all {p q : Event → Bool} {l : List Event}
    (h : l.all q = true) (hpq : ∀ e, q e = true → p e = false) :
    l.filter p = [] := by
  induction l with
  | nil => rfl
  | cons e l ih =>
    simp only [List.all_cons, Bool.and_eq_true] at h
    simp [List.filter_cons, hpq e h.1, ih h.2]

theorem filter_eq_self_of_all {p : Event → Bool} {l : List Event}
    (h : l.all p = true) : l.filter p = l := by
  induction l with
  | nil => rfl
  | cons e l ih =>
    simp only [List.all_cons, Bool.and_eq_true] at h
    simp [List.filter_cons, h.1, ih h.2]

/-! ### Reduction lemmas for the first-generation run -/

theorem RunWithArgs1_start_fail_eq {installed : List Mod} {entry : Mod} {t : Ty}
    (h1 : entry.hasStart = true)
    (h2 : (configPhase1 (installed ++ [entry])).2 = none)
    (h3 : (startPhase installed).2 = some t) :
    RunWithArgs1 installed entry true =
      ((configPhase1 (installed ++ [entry])).1 ++ [.parse, .bindCommand] ++
        (startPhase installed).1, .startErr t) := by
  simp only [RunWithArgs1, h1, if_true, h2, h3]

theorem RunWithArgs1_run_eq {installed : List Mod} {entry : Mod}
    (h1 : entry.hasStart = true)
    (h2 : (configPhase1 (installed ++ [entry])).2 = none)
    (h3 : (startPhase installed).2 = none) :
    RunWithArgs1 installed entry true =
      ((configPhase1 (installed ++ [entry])).1 ++ [.parse, .bindCommand] ++
        (startPhase installed).1 ++ [.runApp] ++ stopPhase installed,
       if entry.startOk then .ok else .runErr) := by
  simp only [RunWithArgs1, h1, if_true, h2, h3]

theorem configPhase1_mem_configure {ms : List Mod}
    (h : (configPhase1 ms).2 = none) :
    ∀ m ∈ ms, m.hasConfigure = true → Event.configure m.ty ∈ (configPhase1 ms).1 := by
  induction ms with
  | nil => simp
  | cons m' ms ih =>
    intro m hm hc
    by_cases hc' : m'.hasConfigure = true
    · by_cases hk : m'.configureOk = true
      · simp only [configPhase1, hc', hk, if_true] at h ⊢
        rcases List.mem_cons.mp hm with rfl | hm'
        · simp
        · simp only [List.mem_append, List.mem_cons]
          exact Or.inr (ih h m hm' hc)
      · simp only [configPhase1, hc', if_true, Bool.not_eq_true] at h
        rw [if_neg (by simp [hk])] at h
        cases h
    · have hc2 : m'.hasConfigure = false := by
        revert hc'; cases m'.hasConfigure <;> simp
      simp only [configPhase1, hc2, Bool.false_eq_true, if_false] at h ⊢
      rcases List.mem_cons.mp hm with rfl | hm'
      · exact absurd hc hc'
      · exact List.mem_cons_of_mem _ (ih h m hm' hc)

theorem isStop_of_config {e : Event} (h : isConfigEvent e = true) : isStop e = false := by
  cases e <;> simp_all [isConfigEvent, isStop]

theorem isStop_of_start {e : Event} (h : isStart e = true) : isStop e = false := by
  cases e <;> simp_all [isStart, isStop]

/-! ### Claim C2 -/

/-- Claim C2, counterexample: with installed modules `modOk` (identity 0,
starts fine, has a Stop) and `modStartFail` (identity 1, Start fails),
the run returns the start error, module 0 did start, yet module 0's Stop
is never invoked — the first-generation `RunWithArgs` returns the start
error immediately, skipping the stop loop, contrary to the claimed
partial-start teardown. -/
theorem claim2_counterexample :
    (RunWithArgs1 [modOk, modStartFail] modEntry true).2 = .startErr 1 ∧
    Event.start 0 ∈ (RunWithArgs1 [modOk, modStartFail] modEntry true).1 ∧
    Event.stop 0 ∉ (RunWithArgs1 [modOk, modStartFail] modEntry true).1 := by
  decide

/-- Claim C2, amended: when a module's Start capability fails (after the
configure and parse phases succeeded), `RunWithArgs` returns that start
error immediately; it aborts the run phase and does not invoke any Stop
capability — not even those of modules that already started. -/
theorem claim2_start_error_aborts_without_stop (installed : List Mod) (entry : Mod)
    (t : Ty) (h1 : entry.hasStart = true)
    (h2 : (configPhase1 (installed ++ [entry])).2 = none)
    (h3 : (startPhase installed).2 = some t) :
    (RunWithArgs1 installed entry true).2 = .startErr t ∧
    (∀ u, Event.stop u ∉ (RunWithArgs1 installed entry true).1) ∧
    Event.runApp ∉ (RunWithArgs1 installed entry true).1 := by
  rw [RunWithArgs1_start_fail_eq h1 h2 h3]
  refine ⟨rfl, ?_, ?_⟩
  · intro u hu
    simp only [List.mem_append, List.mem_cons, List.not_mem_nil] at hu
    rcases hu with (h | h | h | h) | h
    · exact stop_not_mem_of_config u h
    · cases h
    · cases h
    · cases h
    · exact stop_not_mem_of_start u h
  · intro hu
    simp only [List.mem_append, List.mem_cons, List.not_mem_nil] at hu
    rcases hu with (h | h | h | h) | h
    · exact runApp_not_mem_of_config h
    · cases h
    · cases h
    · cases h
    · exact runApp_not_mem_of_start h

/-- Witness for the amended C2 theorem at a concrete input. -/
theorem claim2_start_error_aborts_without_stop_witness :
    (RunWithArgs1 [modOk, modStartFail] modEntry true).2 = .startErr 1 ∧
    Event.stop 0 ∉ (RunWithArgs1 [modOk, modStartFail] modEntry true).1 ∧
    Event.runApp ∉ (RunWithArgs1 [modOk, modStartFail] modEntry true).1 := by
  have h := claim2_start_error_aborts_without_stop [modOk, modStartFail] modEntry 1
    (by decide) (by decide) (by decide)
  exact ⟨h.1, h.2.1 0, h.2.2⟩

/-! ### Claim C5 -/

/-- Claim C5, confirmed: in every first-generation run that reaches the run
phase, the Stop capabilities are invoked exactly for the installed modules
that have one, in the exact reverse of installation order (independently of
any module's Stop outcome, which `RunWithArgs` discards), and the returned
value is the entry point's own result — never a stop-phase error. -/
theorem claim5_stop_reverse_order_and_result (installed : List Mod) (entry : Mod)
    (h1 : entry.hasStart = true)
    (h2 : (configPhase1 (installed ++ [entry])).2 = none)
    (h3 : (startPhase installed).2 = none) :
    (RunWithArgs1 installed entry true).1.filter isStop =
      (installed.reverse.filter (fun m => m.hasStop)).map (fun m => Event.stop m.ty) ∧
    Event.runApp ∈ (RunWithArgs1 installed entry true).1 ∧
    (RunWithArgs1 installed entry true).2 =
      (if entry.startOk then Res.ok else Res.runErr) := by
  rw [RunWithArgs1_run_eq h1 h2 h3]
  refine ⟨?_, ?_, rfl⟩
  · simp only [List.filter_append]
    rw [filter_eq_nil_of_all (configPhase1_shape _) (fun e => isStop_of_config),
      filter_eq_nil_of_all (startPhase_shape _) (fun e => isStop_of_start),
      filter_eq_self_of_all (stopPhase_shape _)]
    rfl
  · simp

/-- Witness for the C5 theorem at a concrete input. -/
theorem claim5_stop_reverse_order_and_result_witness :
    (RunWithArgs1 [modOk] modEntry true).1.filter isStop =
      (([modOk].reverse.filter (fun m => m.hasStop)).map (fun m => Event.stop m.ty)) ∧
    Event.runApp ∈ (RunWithArgs1 [modOk] modEntry true).1 ∧
    (RunWithArgs1 [modOk] modEntry true).2 =
      (if modEntry.startOk then Res.ok else Res.runErr) :=
  claim5_stop_reverse_order_and_result [modOk] modEntry (by decide) (by decide) (by decide)

/-! ### Claim C10 -/

/-- Claim C10, confirmed: the entry-point module is configured in the same
configure loop as installed modules and its Start is invoked (as the run
step), but the stop loop iterates only over the modules added via
`Install`: the entry module's Stop is never invoked. -/
theorem claim10_entry_not_stopped (installed : List Mod) (entry : Mod)
    (h1 : entry.hasStart = true)
    (h2 : (configPhase1 (installed ++ [entry])).2 = none)
    (h3 : (startPhase installed).2 = none)
    (h4 : entry.ty ∉ installed.map (fun m => m.ty))
    (h5 : entry.hasConfigure = true) :
    Event.configure entry.ty ∈ (RunWithArgs1 installed entry true).1 ∧
    Event.runApp ∈ (RunWithArgs1 installed entry true).1 ∧
    Event.stop entry.ty ∉ (RunWithArgs1 installed entry true).1 ∧
    (RunWithArgs1 installed entry true).1.filter isStop =
      (installed.reverse.filter (fun m => m.hasStop)).map (fun m => Event.stop m.ty) := by
  rw [RunWithArgs1_run_eq h1 h2 h3]
  refine ⟨?_, by simp, ?_, ?_⟩
  · simp only [List.mem_append]
    exact Or.inl <| Or.inl <| Or.inl <| Or.inl <|
      configPhase1_mem_configure h2 entry (by simp) h5
  · intro hu
    simp only [List.mem_append, List.mem_cons, List.not_mem_nil, reduceCtorEq,
      or_false, false_or] at hu
    rcases hu with (h | h) | h
    · exact stop_not_mem_of_config entry.ty h
    · exact stop_not_mem_of_start entry.ty h
    · exact h4 (stopPhase_mem_ty h)
  · simp only [List.filter_append]
    rw [filter_eq_nil_of_all (configPhase1_shape _) (fun e => isStop_of_config),
      filter_eq_nil_of_all (startPhase_shape _) (fun e => isStop_of_start),
      filter_eq_self_of_all (stopPhase_shape _)]
    rfl

/-- Witness for the C10 theorem at a concrete input. -/
theorem claim10_entry_not_stopped_witness :
    Event.configure modEntry.ty ∈ (RunWithArgs1 [modOk] modEntry true).1 ∧
    Event.runApp ∈ (RunWithArgs1 [modOk] modEntry true).1 ∧
    Event.stop modEntry.ty ∉ (RunWithArgs1 [modOk] modEntry true).1 ∧
    (RunWithArgs1 [modOk] modEntry true).1.filter isStop =
      (([modOk].reverse.filter (fun m => m.hasStop)).map (fun m => Event.stop m.ty)) :=
  claim10_entry_not_stopped [modOk] modEntry (by decide) (by decide) (by decide)
    (by decide) (by decide)

/-! ### Claim C7 -/

/-- Claim C7, confirmed: installing a module whose concrete type equals that
of an already-installed module fails fatally at install time (the Go code
panics) with the offending type in the message, and nothing else happens:
no capability is invoked and no resolution or lifecycle phase runs (the
trace is empty and no registry is produced). -/
theorem claim7_duplicate_install_panics (reg : Registry) (m : Mod) (rest : List Mod)
    (h : m.ty ∈ reg.map (fun p => p.1.ty)) :
    Install reg (m :: rest) = ([], .error m.ty) := by
  simp [Install, h]

/-- Witness for the C7 theorem: re-installing `modOk` (identity 0). -/
theorem claim7_duplicate_install_panics_witness :
    Install [(modOk, [])] [modOk] = ([], .error modOk.ty) :=
  claim7_duplicate_install_panics [(modOk, [])] modOk [] (by decide)

/-! ### Claim C8 -/

/-- Claim C8, counterexample: `Install` does invoke a capability of the
module being installed — the dependency-declaration capability.  Installing
`modWithDeps` (identity 3, which implements `ModuleDependencies`) calls its
`Dependencies()` method, so the trace is not capability-free. -/
theorem claim8_counterexample :
    (Install [] [modWithDeps]).1 = [Event.depsCalled 3] ∧
    (Install [] [modWithDeps]).1 ≠ [] := by
  decide

/-- Claim C8, amended: `Install` records each module in the registry
together with the dependency list obtained from its dependency-declaration
capability; that capability (`Dependencies()`) is the only one it may
invoke — every event it emits is a `depsCalled` event, so Configure, Start,
Stop and providers are untouched. -/
theorem claim8_install_records_only (reg : Registry) (ms : List Mod) (reg' : Registry)
    (h : (Install reg ms).2 = .ok reg') :
    reg' = reg ++ recordedOf ms ∧
    ∀ e ∈ (Install reg ms).1, isDepsCalled e = true := by
  refine ⟨?_, fun e he => mem_of_all_eq_true (Install_shape ms reg) he⟩
  induction ms generalizing reg with
  | nil =>
    simp only [Install] at h
    cases h
    simp [recordedOf]
  | cons m ms ih =>
    by_cases hd : m.ty ∈ reg.map (fun p => p.1.ty)
    · rw [claim7_duplicate_install_panics reg m ms hd] at h
      cases h
    · simp only [Install, hd, if_false] at h
      have := ih (reg ++ [(m, if m.hasDeps then m.deps else [])]) h
      rw [this]
      simp [recordedOf, List.append_assoc]

/-- Witness for the amended C8 theorem at a concrete input. -/
theorem claim8_install_records_only_witness :
    ([(modWithDeps, [0])] : Registry) = [] ++ recordedOf [modWithDeps] :=
  (claim8_install_records_only [] [modWithDeps] [(modWithDeps, [0])] rfl).1

/-! ### Claim C9 -/

/-- Claim C9, counterexample: resolution is not deterministic across runs.
For two modules with no dependencies, two map-iteration schedules (both
possible orders of a Go map range) make `topoSortModules` return two
different sequences for the same input. -/
theorem claim9_counterexample :
    topoSortModules [(0, []), (1, [])] [[0, 1]] = .ok [0, 1] ∧
    topoSortModules [(0, []), (1, [])] [[1, 0]] = .ok [1, 0] ∧
    ([0, 1] : List Ty) ≠ [1, 0] :=
  ⟨rfl, rfl, by decide⟩

/-! ### Claim C6 -/

/-- Claim C6, counterexample: in the second-generation `RunWithArgs`, the
`SelectedCommand` value is bound after the start phase, not before: with a
single module that has a Start capability, a `start` event precedes the
`bindCommand` event, so the command is not available for injection during
start. -/
theorem claim6_counterexample :
    noStartBeforeBind (RunWithArgs2 [(modOk, [])] [] true true).1 = false ∧
    Event.bindCommand ∈ (RunWithArgs2 [(modOk, [])] [] true true).1 ∧
    Event.start 0 ∈ (RunWithArgs2 [(modOk, [])] [] true true).1 := by
  decide

/-! ### Association-list lemmas for the resolver state -/

theorem lookupG_isSome_iff {g : Graph} {t : Ty} :
    (lookupG g t).isSome = true ↔ t ∈ keysOf g := by
  induction g with
  | nil => simp [lookupG, keysOf]
  | cons p g ih =>
    obtain ⟨k, v⟩ := p
    by_cases hk : k = t
    · subst hk
      simp [lookupG, keysOf]
    · simp [lookupG, hk, keysOf, ih, Ne.symm hk]

theorem lookupG_eq_none_iff {g : Graph} {t : Ty} :
    lookupG g t = none ↔ t ∉ keysOf g := by
  rw [← lookupG_isSome_iff]
  cases lookupG g t <;> simp

theorem lookupG_mem {g : Graph} {t : Ty} {ds : List Ty} (h : lookupG g t = some ds) :
    (t, ds) ∈ g := by
  induction g with
  | nil => cases h
  | cons p g ih =>
    obtain ⟨k, v⟩ := p
    by_cases hk : k = t
    · subst hk
      simp only [lookupG, if_pos rfl] at h
      cases h
      exact List.mem_cons_self _ _
    · simp only [lookupG, if_neg hk] at h
      exact List.mem_cons_of_mem _ (ih h)

theorem lookupG_of_mem {g : Graph} {t : Ty} {ds : List Ty}
    (hn : (keysOf g).Nodup) (h : (t, ds) ∈ g) : lookupG g t = some ds := by
  induction g with
  | nil => cases h
  | cons p g ih =>
    obtain ⟨k, v⟩ := p
    simp only [keysOf, List.map_cons, List.nodup_cons] at hn
    rcases List.mem_cons.mp h with heq | hmem
    · cases heq
      simp [lookupG]
    · have hk : k ≠ t := by
        intro hkt
        apply hn.1
        rw [hkt]
        exact List.mem_map.mpr ⟨(t, ds), hmem, rfl⟩
      simp only [lookupG, if_neg hk]
      exact ih hn.2 hmem

theorem lookupG_eraseKey_ne {g : Graph} {n t : Ty} (h : t ≠ n) :
    lookupG (eraseKey g n) t = lookupG g t := by
  induction g with
  | nil => rfl
  | cons p g ih =>
    obtain ⟨k, v⟩ := p
    by_cases hk : k = n
    · subst hk
      have hkt : ¬ k = t := fun hq => h hq.symm
      simp [eraseKey, lookupG, hkt]
    · by_cases hkt : k = t
      · subst hkt
        simp [eraseKey, hk, lookupG]
      · simpa [eraseKey, hk, lookupG, hkt] using ih

theorem lookupG_eraseKey_none {g : Graph} {n t : Ty} (h : lookupG g t = none) :
    lookupG (eraseKey g n) t = none := by
  induction g with
  | nil => rfl
  | cons p g ih =>
    obtain ⟨k, v⟩ := p
    by_cases hkt : k = t
    · subst hkt
      simp [lookupG] at h
    · simp only [lookupG, if_neg hkt] at h
      by_cases hk : k = n
      · subst hk
        simpa [eraseKey] using h
      · simp [eraseKey, hk, lookupG, hkt, ih h]

theorem keysOf_eraseKey (g : Graph) (n : Ty) :
    keysOf (eraseKey g n) = (keysOf g).erase n := by
  induction g with
  | nil => rfl
  | cons p g ih =>
    obtain ⟨k, v⟩ := p
    by_cases hk : k = n
    · subst hk
      simp only [eraseKey, if_pos rfl]
      show keysOf g = (k :: keysOf g).erase k
      rw [List.erase_cons_head]
    · simp only [eraseKey, if_neg hk]
      show k :: keysOf (eraseKey g n) = (k :: keysOf g).erase n
      rw [ih, List.erase_cons]
      simp [hk]

theorem subG_eraseKey {g : Graph} {n : Ty} : ∀ p ∈ eraseKey g n, p ∈ g := by
  induction g with
  | nil => simp [eraseKey]
  | cons q g ih =>
    obtain ⟨k, v⟩ := q
    intro p hp
    by_cases hk : k = n
    · subst hk
      simp only [eraseKey, if_pos rfl] at hp
      exact List.mem_cons_of_mem _ hp
    · simp only [eraseKey, if_neg hk, List.mem_cons] at hp
      rcases hp with rfl | hp
      · exact List.mem_cons_self _ _
      · exact List.mem_cons_of_mem _ (ih p hp)

theorem length_eraseKey_lt {g : Graph} {n : Ty} (h : n ∈ keysOf g) :
    (eraseKey g n).length < g.length := by
  have h1 : (eraseKey g n).length = (keysOf (eraseKey g n)).length := by
    simp [keysOf]
  have h2 : g.length = (keysOf g).length := by simp [keysOf]
  rw [h1, h2, keysOf_eraseKey, List.length_erase_of_mem h]
  have : 0 < (keysOf g).length := List.length_pos_of_mem h
  omega

theorem nodup_keys_eraseKey {g : Graph} {n : Ty} (h : (keysOf g).Nodup) :
    (keysOf (eraseKey g n)).Nodup := by
  rw [keysOf_eraseKey]
  exact h.erase n

theorem mem_keys_eraseKey_of_ne {g : Graph} {n t : Ty} (ht : t ∈ keysOf g)
    (hne : t ≠ n) : t ∈ keysOf (eraseKey g n) := by
  rw [keysOf_eraseKey]
  exact List.mem_erase_of_ne hne |>.mpr ht

theorem not_mem_keys_eraseKey_self {g : Graph} {n : Ty} (h : (keysOf g).Nodup) :
    n ∉ keysOf (eraseKey g n) := by
  rw [keysOf_eraseKey]
  exact h.not_mem_erase

/-! ### Lemmas about the edge scan -/

theorem scanEdges_ok_false {inst : List Ty} {g : Graph} {node : Ty} {es : List Ty}
    (h : scanEdges inst g node es = .ok false) :
    ∀ e ∈ es, e ∈ inst ∧ lookupG g e = none := by
  induction es with
  | nil => simp
  | cons e es ih =>
    by_cases hi : e ∈ inst
    · by_cases hs : (lookupG g e).isSome = true
      · simp [scanEdges, hi, hs] at h
      · simp only [scanEdges, if_pos hi, if_neg hs] at h
        intro e' he'
        rcases List.mem_cons.mp he' with rfl | he'
        · exact ⟨hi, Option.not_isSome_iff_eq_none.mp hs⟩
        · exact ih h e' he'
    · simp [scanEdges, hi] at h

theorem scanEdges_ok_false_of {inst : List Ty} {g : Graph} {node : Ty} {es : List Ty}
    (h : ∀ e ∈ es, e ∈ inst ∧ lookupG g e = none) :
    scanEdges inst g node es = .ok false := by
  induction es with
  | nil => rfl
  | cons e es ih =>
    obtain ⟨hi, hn⟩ := h e (List.mem_cons_self _ _)
    simp only [scanEdges, if_pos hi, hn, Option.isSome_none, Bool.false_eq_true,
      if_false]
    exact ih fun e' he' => h e' (List.mem_cons_of_mem _ he')

theorem scanEdges_error {inst : List Ty} {g : Graph} {node : Ty} {es : List Ty}
    {er : Err} (h : scanEdges inst g node es = .error er) :
    ∃ d, er = .notAvailable d node ∧ d ∈ es ∧ d ∉ inst := by
  induction es with
  | nil => cases h
  | cons e es ih =>
    by_cases hi : e ∈ inst
    · by_cases hs : (lookupG g e).isSome = true
      · simp [scanEdges, hi, hs] at h
      · simp only [scanEdges, if_pos hi, if_neg hs] at h
        obtain ⟨d, hd, hmem, hni⟩ := ih h
        exact ⟨d, hd, List.mem_cons_of_mem _ hmem, hni⟩
    · simp only [scanEdges, if_neg hi] at h
      cases h
      exact ⟨e, rfl, List.mem_cons_self _ _, hi⟩

theorem scanEdges_ok_of_sub {inst : List Ty} {g : Graph} {node : Ty} {es : List Ty}
    (h : ∀ e ∈ es, e ∈ inst) : ∃ b, scanEdges inst g node es = .ok b := by
  induction es with
  | nil => exact ⟨false, rfl⟩
  | cons e es ih =>
    have hi := h e (List.mem_cons_self _ _)
    by_cases hs : (lookupG g e).isSome = true
    · exact ⟨true, by simp [scanEdges, hi, hs]⟩
    · obtain ⟨b, hb⟩ := ih fun e' he' => h e' (List.mem_cons_of_mem _ he')
      exact ⟨b, by simp only [scanEdges, if_pos hi, if_neg hs]; exact hb⟩

/-! ### Unfolding lemmas for one peel pass -/

theorem runPass_cons_none {inst : List Ty} {n : Ty} {rest : List Ty} {g : Graph}
    {sorted : List Ty} {ac : Bool} (h : lookupG g n = none) :
    runPass inst (n :: rest) g sorted ac = runPass inst rest g sorted ac := by
  simp [runPass, h]

theorem runPass_cons_error {inst : List Ty} {n : Ty} {rest : List Ty} {g : Graph}
    {sorted : List Ty} {ac : Bool} {edges : List Ty} {er : Err}
    (h : lookupG g n = some edges) (hs : scanEdges inst g n edges = .error er) :
    runPass inst (n :: rest) g sorted ac = .error er := by
  simp [runPass, h, hs]

theorem runPass_cons_found {inst : List Ty} {n : Ty} {rest : List Ty} {g : Graph}
    {sorted : List Ty} {ac : Bool} {edges : List Ty}
    (h : lookupG g n = some edges) (hs : scanEdges inst g n edges = .ok true) :
    runPass inst (n :: rest) g sorted ac = runPass inst rest g sorted ac := by
  simp [runPass, h, hs]

theorem runPass_cons_remove {inst : List Ty} {n : Ty} {rest : List Ty} {g : Graph}
    {sorted : List Ty} {ac : Bool} {edges : List Ty}
    (h : lookupG g n = some edges) (hs : scanEdges inst g n edges = .ok false) :
    runPass inst (n :: rest) g sorted ac =
      runPass inst rest (eraseKey g n) (sorted ++ [n]) true := by
  simp [runPass, h, hs]

/-! ### Structural lemmas for one peel pass -/

theorem runPass_sub {inst : List Ty} {order : List Ty} :
    ∀ {g : Graph} {sorted : List Ty} {ac : Bool} {g' : Graph} {sorted' : List Ty}
      {ac' : Bool}, runPass inst order g sorted ac = .ok (g', sorted', ac') →
      ∀ p ∈ g', p ∈ g := by
  induction order with
  | nil =>
    intro g sorted ac g' sorted' ac' h p hp
    simp only [runPass, Except.ok.injEq, Prod.mk.injEq] at h
    obtain ⟨rfl, -, -⟩ := h
    exact hp
  | cons n rest ih =>
    intro g sorted ac g' sorted' ac' h p hp
    cases hl : lookupG g n with
    | none =>
      rw [runPass_cons_none hl] at h
      exact ih h p hp
    | some edges =>
      cases hs : scanEdges inst g n edges with
      | error er =>
        rw [runPass_cons_error hl hs] at h
        cases h
      | ok b =>
        cases b
        · rw [runPass_cons_remove hl hs] at h
          exact subG_eraseKey p (ih h p hp)
        · rw [runPass_cons_found hl hs] at h
          exact ih h p hp

theorem runPass_nodup {inst : List Ty} {order : List Ty} :
    ∀ {g : Graph} {sorted : List Ty} {ac : Bool} {g' : Graph} {sorted' : List Ty}
      {ac' : Bool}, (keysOf g).Nodup →
      runPass inst order g sorted ac = .ok (g', sorted', ac') →
      (keysOf g').Nodup := by
  induction order with
  | nil =>
    intro g sorted ac g' sorted' ac' hn h
    simp only [runPass, Except.ok.injEq, Prod.mk.injEq] at h
    obtain ⟨rfl, -, -⟩ := h
    exact hn
  | cons n rest ih =>
    intro g sorted ac g' sorted' ac' hn h
    cases hl : lookupG g n with
    | none =>
      rw [runPass_cons_none hl] at h
      exact ih hn h
    | some edges =>
      cases hs : scanEdges inst g n edges with
      | error er =>
        rw [runPass_cons_error hl hs] at h
        cases h
      | ok b =>
        cases b
        · rw [runPass_cons_remove hl hs] at h
          exact ih (nodup_keys_eraseKey hn) h
        · rw [runPass_cons_found hl hs] at h
          exact ih hn h

theorem runPass_flag_mono {inst : List Ty} {order : List Ty} :
    ∀ {g : Graph} {sorted : List Ty} {g' : Graph} {sorted' : List Ty} {ac' : Bool},
      runPass inst order g sorted true = .ok (g', sorted', ac') → ac' = true := by
  induction order with
  | nil =>
    intro g sorted g' sorted' ac' h
    simp only [runPass, Except.ok.injEq, Prod.mk.injEq] at h
    obtain ⟨-, -, h3⟩ := h
    exact h3.symm
  | cons n rest ih =>
    intro g sorted g' sorted' ac' h
    cases hl : lookupG g n with
    | none =>
      rw [runPass_cons_none hl] at h
      exact ih h
    | some edges =>
      cases hs : scanEdges inst g n edges with
      | error er =>
        rw [runPass_cons_error hl hs] at h
        cases h
      | ok b =>
        cases b
        · rw [runPass_cons_remove hl hs] at h
          exact ih h
        · rw [runPass_cons_found hl hs] at h
          exact ih h

theorem runPass_length_le {inst : List Ty} {order : List Ty} :
    ∀ {g : Graph} {sorted : List Ty} {ac : Bool} {g' : Graph} {sorted' : List Ty}
      {ac' : Bool}, runPass inst order g sorted ac = .ok (g', sorted', ac') →
      g'.length ≤ g.length := by
  induction order with
  | nil =>
    intro g sorted ac g' sorted' ac' h
    simp only [runPass, Except.ok.injEq, Prod.mk.injEq] at h
    obtain ⟨rfl, -, -⟩ := h
    exact le_refl _
  | cons n rest ih =>
    intro g sorted ac g' sorted' ac' h
    cases hl : lookupG g n with
    | none =>
      rw [runPass_cons_none hl] at h
      exact ih h
    | some edges =>
      cases hs : scanEdges inst g n edges with
      | error er =>
        rw [runPass_cons_error hl hs] at h
        cases h
      | ok b =>
        cases b
        · rw [runPass_cons_remove hl hs] at h
          have hmem : n ∈ keysOf g :=
            lookupG_isSome_iff.mp (by rw [hl]; rfl)
          exact le_trans (ih h) (le_of_lt (length_eraseKey_lt hmem))
        · rw [runPass_cons_found hl hs] at h
          exact ih h

theorem runPass_shrink {inst : List Ty} {order : List Ty} :
    ∀ {g : Graph} {sorted : List Ty} {g' : Graph} {sorted' : List Ty} {ac' : Bool},
      runPass inst order g sorted false = .ok (g', sorted', ac') →
      g'.length ≤ g.length ∧ (ac' = true → g'.length < g.length) := by
  induction order with
  | nil =>
    intro g sorted g' sorted' ac' h
    simp only [runPass, Except.ok.injEq, Prod.mk.injEq] at h
    obtain ⟨rfl, -, h3⟩ := h
    exact ⟨le_refl _, fun hf => by rw [← h3] at hf; cases hf⟩
  | cons n rest ih =>
    intro g sorted g' sorted' ac' h
    cases hl : lookupG g n with
    | none =>
      rw [runPass_cons_none hl] at h
      exact ih h
    | some edges =>
      cases hs : scanEdges inst g n edges with
      | error er =>
        rw [runPass_cons_error hl hs] at h
        cases h
      | ok b =>
        cases b
        · rw [runPass_cons_remove hl hs] at h
          have hmem : n ∈ keysOf g :=
            lookupG_isSome_iff.mp (by rw [hl]; rfl)
          have hlt := length_eraseKey_lt (g := g) hmem
          have hle := runPass_length_le h
          exact ⟨le_trans hle (le_of_lt hlt), fun _ => lt_of_le_of_lt hle hlt⟩
        · rw [runPass_cons_found hl hs] at h
          exact ih h

theorem runPass_ok_of_inst {inst : List Ty} {order : List Ty} :
    ∀ {g : Graph} {sorted : List Ty} {ac : Bool},
      (∀ p ∈ g, ∀ d ∈ p.2, d ∈ inst) →
      ∃ out, runPass inst order g sorted ac = .ok out := by
  induction order with
  | nil => exact fun _ => ⟨_, rfl⟩
  | cons n rest ih =>
    intro g sorted ac hg
    cases hl : lookupG g n with
    | none =>
      rw [runPass_cons_none hl]
      exact ih hg
    | some edges =>
      have hsub : ∀ e ∈ edges, e ∈ inst := fun e he => hg (n, edges) (lookupG_mem hl) e he
      obtain ⟨b, hb⟩ := @scanEdges_ok_of_sub inst g n edges hsub
      cases b
      · rw [runPass_cons_remove hl hb]
        exact ih fun p hp => hg p (subG_eraseKey p hp)
      · rw [runPass_cons_found hl hb]
        exact ih hg

theorem runPass_error_sound {inst : List Ty} {order : List Ty} :
    ∀ {g : Graph} {sorted : List Ty} {ac : Bool} {er : Err},
      runPass inst order g sorted ac = .error er →
      ∃ d nd ds, er = .notAvailable d nd ∧ d ∉ inst ∧ (nd, ds) ∈ g ∧ d ∈ ds := by
  induction order with
  | nil =>
    intro g sorted ac er h
    cases h
  | cons n rest ih =>
    intro g sorted ac er h
    cases hl : lookupG g n with
    | none =>
      rw [runPass_cons_none hl] at h
      exact ih h
    | some edges =>
      cases hs : scanEdges inst g n edges with
      | error er' =>
        rw [runPass_cons_error hl hs] at h
        cases h
        obtain ⟨d, rfl, hmem, hni⟩ := scanEdges_error hs
        exact ⟨d, n, edges, rfl, hni, lookupG_mem hl, hmem⟩
      | ok b =>
        cases b
        · rw [runPass_cons_remove hl hs] at h
          obtain ⟨d, nd, ds, h1, h2, h3, h4⟩ := ih h
          exact ⟨d, nd, ds, h1, h2, subG_eraseKey _ h3, h4⟩
        · rw [runPass_cons_found hl hs] at h
          exact ih h

theorem runPass_preserves_stuck {inst : List Ty} {order : List Ty} {m d : Ty}
    {ds : List Ty} (hdi : d ∉ inst) (hd : d ∈ ds) :
    ∀ {g : Graph} {sorted : List Ty} {ac : Bool} {g' : Graph} {sorted' : List Ty}
      {ac' : Bool}, lookupG g m = some ds →
      runPass inst order g sorted ac = .ok (g', sorted', ac') →
      lookupG g' m = some ds := by
  induction order with
  | nil =>
    intro g sorted ac g' sorted' ac' hm h
    simp only [runPass, Except.ok.injEq, Prod.mk.injEq] at h
    obtain ⟨rfl, -, -⟩ := h
    exact hm
  | cons n rest ih =>
    intro g sorted ac g' sorted' ac' hm h
    cases hl : lookupG g n with
    | none =>
      rw [runPass_cons_none hl] at h
      exact ih hm h
    | some edges =>
      cases hs : scanEdges inst g n edges with
      | error er =>
        rw [runPass_cons_error hl hs] at h
        cases h
      | ok b =>
        cases b
        · rw [runPass_cons_remove hl hs] at h
          have hnm : m ≠ n := by
            intro he
            subst he
            rw [hm] at hl
            cases hl
            exact hdi (scanEdges_ok_false hs d hd).1
          have : lookupG (eraseKey g n) m = some ds := by
            rw [lookupG_eraseKey_ne hnm]
            exact hm
          exact ih this h
        · rw [runPass_cons_found hl hs] at h
          exact ih hm h

/-- A non-empty set of nodes each of which has a declared dependency inside
the set (the nodes of a dependency cycle are such a set) survives every
peel pass untouched. -/
def Blocked (g : Graph) (S : List Ty) : Prop :=
  ∀ s ∈ S, ∃ ds, lookupG g s = some ds ∧ ∃ d ∈ ds, d ∈ S

theorem runPass_preserves_blocked {inst : List Ty} {order : List Ty} {S : List Ty} :
    ∀ {g : Graph} {sorted : List Ty} {ac : Bool} {g' : Graph} {sorted' : List Ty}
      {ac' : Bool}, Blocked g S →
      runPass inst order g sorted ac = .ok (g', sorted', ac') →
      Blocked g' S := by
  induction order with
  | nil =>
    intro g sorted ac g' sorted' ac' hS h
    simp only [runPass, Except.ok.injEq, Prod.mk.injEq] at h
    obtain ⟨rfl, -, -⟩ := h
    exact hS
  | cons n rest ih =>
    intro g sorted ac g' sorted' ac' hS h
    cases hl : lookupG g n with
    | none =>
      rw [runPass_cons_none hl] at h
      exact ih hS h
    | some edges =>
      cases hs : scanEdges inst g n edges with
      | error er =>
        rw [runPass_cons_error hl hs] at h
        cases h
      | ok b =>
        cases b
        · rw [runPass_cons_remove hl hs] at h
          have hnS : n ∉ S := by
            intro hn
            obtain ⟨ds, hds, d, hd, hdS⟩ := hS n hn
            rw [hl] at hds
            cases hds
            obtain ⟨ds', hds', -⟩ := hS d hdS
            have := (scanEdges_ok_false hs d hd).2
            rw [this] at hds'
            cases hds'
          refine ih ?_ h
          intro s hsS
          obtain ⟨ds, hds, d, hd, hdS⟩ := hS s hsS
          refine ⟨ds, ?_, d, hd, hdS⟩
          rw [lookupG_eraseKey_ne (fun he => hnS (by rw [← he]; exact hsS))]
          exact hds
        · rw [runPass_cons_found hl hs] at h
          exact ih hS h

theorem runPass_progress {inst : List Ty} {order : List Ty} {n : Ty} {ds : List Ty} :
    ∀ {g : Graph} {sorted : List Ty} {ac : Bool},
      (∀ p ∈ g, ∀ d ∈ p.2, d ∈ inst) →
      n ∈ order → lookupG g n = some ds → (∀ d ∈ ds, lookupG g d = none) →
      ∃ g' sorted', runPass inst order g sorted ac = .ok (g', sorted', true) := by
  induction order with
  | nil =>
    intro g sorted ac _ hn
    cases hn
  | cons m rest ih =>
    intro g sorted ac hg hn hl hds
    by_cases hmn : m = n
    · subst hmn
      have hsc : scanEdges inst g m ds = .ok false := by
        apply scanEdges_ok_false_of
        intro e he
        exact ⟨hg (m, ds) (lookupG_mem hl) e he, hds e he⟩
      rw [runPass_cons_remove hl hsc]
      have hg' : ∀ p ∈ eraseKey g m, ∀ d ∈ p.2, d ∈ inst :=
        fun p hp => hg p (subG_eraseKey p hp)
      obtain ⟨⟨g', sorted', ac'⟩, hout⟩ :=
        @runPass_ok_of_inst inst rest (eraseKey g m) (sorted ++ [m]) true hg'
      exact ⟨g', sorted', by rw [hout, runPass_flag_mono hout]⟩
    · have hn' : n ∈ rest := by
        rcases List.mem_cons.mp hn with he | he
        · exact absurd he.symm hmn
        · exact he
      cases hl' : lookupG g m with
      | none =>
        rw [runPass_cons_none hl']
        exact ih hg hn' hl hds
      | some edges =>
        have hsub : ∀ e ∈ edges, e ∈ inst :=
          fun e he => hg (m, edges) (lookupG_mem hl') e he
        obtain ⟨b, hb⟩ := @scanEdges_ok_of_sub inst g m edges hsub
        cases b
        · rw [runPass_cons_remove hl' hb]
          have hg' : ∀ p ∈ eraseKey g m, ∀ d ∈ p.2, d ∈ inst :=
            fun p hp => hg p (subG_eraseKey p hp)
          obtain ⟨⟨g', sorted', ac'⟩, hout⟩ :=
            @runPass_ok_of_inst inst rest (eraseKey g m) (sorted ++ [m]) true hg'
          exact ⟨g', sorted', by rw [hout, runPass_flag_mono hout]⟩
        · rw [runPass_cons_found hl' hb]
          exact ih hg hn' hl hds

/-! ### Ordering predicate lemmas -/

theorem Precedes.append_right {l : List Ty} {a b : Ty} (h : Precedes l a b)
    (l' : List Ty) : Precedes (l ++ l') a b := by
  obtain ⟨l1, l2, l3, rfl⟩ := h
  exact ⟨l1, l2, l3 ++ l', by simp⟩

theorem precedes_append_last {l : List Ty} {a b : Ty} (h : a ∈ l) :
    Precedes (l ++ [b]) a b := by
  obtain ⟨s, t, rfl⟩ := List.append_of_mem h
  exact ⟨s, t, [], by simp⟩

theorem mem_unique_of_nodup {g : Graph} (hn : (keysOf g).Nodup) {t : Ty}
    {a b : List Ty} (ha : (t, a) ∈ g) (hb : (t, b) ∈ g) : a = b := by
  have h1 := lookupG_of_mem hn ha
  have h2 := lookupG_of_mem hn hb
  rw [h1] at h2
  cases h2
  rfl

/-! ### The peel invariant -/

/-- Invariant of the peel relative to the original graph `g0`: the working
graph is a sub-collection of `g0` with distinct keys, `sorted` holds exactly
the removed keys (in removal order), and every dependency of a removed key
was removed before it. -/
structure SortInv (g0 : Graph) (g : Graph) (sorted : List Ty) : Prop where
  sub : ∀ p ∈ g, p ∈ g0
  nk : (keysOf g).Nodup
  disj : ∀ t ∈ sorted, t ∉ keysOf g
  cover : ∀ t, t ∈ keysOf g0 ↔ (t ∈ keysOf g ∨ t ∈ sorted)
  ns : sorted.Nodup
  topo : ∀ t ∈ sorted, ∀ ds, (t, ds) ∈ g0 → ∀ d ∈ ds, Precedes sorted d t

theorem SortInv.init {g0 : Graph} (hn0 : (keysOf g0).Nodup) : SortInv g0 g0 [] :=
  ⟨fun _ hp => hp, hn0, by simp, by simp, List.nodup_nil, by simp⟩

theorem SortInv.remove {g0 g : Graph} {sorted : List Ty} {n : Ty} {edges : List Ty}
    (hn0 : (keysOf g0).Nodup) (inv : SortInv g0 g sorted)
    (hl : lookupG g n = some edges)
    (hsc : ∀ e ∈ edges, e ∈ keysOf g0 ∧ lookupG g e = none) :
    SortInv g0 (eraseKey g n) (sorted ++ [n]) := by
  have hnk : n ∈ keysOf g := lookupG_isSome_iff.mp (by rw [hl]; rfl)
  refine ⟨?_, ?_, ?_, ?_, ?_, ?_⟩
  · exact fun p hp => inv.sub p (subG_eraseKey p hp)
  · exact nodup_keys_eraseKey inv.nk
  · intro t ht
    rcases List.mem_append.mp ht with h | h
    · intro hmem
      exact inv.disj t h (List.mem_of_mem_erase (by rwa [← keysOf_eraseKey]))
    · rcases List.mem_singleton.mp h with rfl
      exact not_mem_keys_eraseKey_self inv.nk
  · intro t
    rw [inv.cover t]
    constructor
    · rintro (h | h)
      · by_cases hne : t = n
        · subst hne
          exact Or.inr (List.mem_append_right _ (List.mem_singleton_self _))
        · exact Or.inl (mem_keys_eraseKey_of_ne h hne)
      · exact Or.inr (List.mem_append_left _ h)
    · rintro (h | h)
      · exact Or.inl (List.mem_of_mem_erase (by rwa [← keysOf_eraseKey]))
      · rcases List.mem_append.mp h with h | h
        · exact Or.inr h
        · rcases List.mem_singleton.mp h with rfl
          exact Or.inl hnk
  · have hns : n ∉ sorted := fun hmem => inv.disj n hmem hnk
    simp [List.nodup_append, inv.ns, hns]
  · intro t ht ds hds d hd
    rcases List.mem_append.mp ht with h | h
    · exact (inv.topo t h ds hds d hd).append_right [n]
    · rcases List.mem_singleton.mp h with rfl
      have hed : (t, edges) ∈ g0 := inv.sub _ (lookupG_mem hl)
      have hde : ds = edges := mem_unique_of_nodup hn0 hds hed
      subst hde
      obtain ⟨h1, h2⟩ := hsc d hd
      have hdg : d ∉ keysOf g := lookupG_eq_none_iff.mp h2
      rcases (inv.cover d).mp h1 with h | h
      · exact absurd h hdg
      · exact precedes_append_last h

theorem runPass_inv {g0 : Graph} (hn0 : (keysOf g0).Nodup) {order : List Ty} :
    ∀ {g : Graph} {sorted : List Ty} {ac : Bool} {g' : Graph} {sorted' : List Ty}
      {ac' : Bool}, SortInv g0 g sorted →
      runPass (keysOf g0) order g sorted ac = .ok (g', sorted', ac') →
      SortInv g0 g' sorted' := by
  induction order with
  | nil =>
    intro g sorted ac g' sorted' ac' inv h
    simp only [runPass, Except.ok.injEq, Prod.mk.injEq] at h
    obtain ⟨rfl, rfl, -⟩ := h
    exact inv
  | cons n rest ih =>
    intro g sorted ac g' sorted' ac' inv h
    cases hl : lookupG g n with
    | none =>
      rw [runPass_cons_none hl] at h
      exact ih inv h
    | some edges =>
      cases hs : scanEdges (keysOf g0) g n edges with
      | error er =>
        rw [runPass_cons_error hl hs] at h
        cases h
      | ok b =>
        cases b
        · rw [runPass_cons_remove hl hs] at h
          exact ih (inv.remove hn0 hl (scanEdges_ok_false hs)) h
        · rw [runPass_cons_found hl hs] at h
          exact ih inv h

theorem mem_mkOrder_of_mem {pref keys : List Ty} {t : Ty} (h : t ∈ keys) :
    t ∈ mkOrder pref keys := by
  by_cases hp : t ∈ pref
  · exact List.mem_append_left _
      (List.mem_filter.mpr ⟨List.mem_dedup.mpr hp, by simp [h]⟩)
  · exact List.mem_append_right _ (List.mem_filter.mpr ⟨h, by simp [hp]⟩)

theorem exists_min_image {l : List Ty} (h : l ≠ []) (f : Ty → Nat) :
    ∃ n ∈ l, ∀ m ∈ l, f n ≤ f m := by
  induction l with
  | nil => cases h rfl
  | cons a l ih =>
    cases l with
    | nil => exact ⟨a, List.mem_singleton_self a, by simp⟩
    | cons b l' =>
      obtain ⟨n, hn, hmin⟩ := ih (by simp)
      by_cases hle : f a ≤ f n
      · refine ⟨a, List.mem_cons_self _ _, ?_⟩
        intro m hm
        rcases List.mem_cons.mp hm with rfl | hm
        · exact le_refl _
        · exact le_trans hle (hmin m hm)
      · refine ⟨n, List.mem_cons_of_mem _ hn, ?_⟩
        intro m hm
        rcases List.mem_cons.mp hm with rfl | hm
        · exact le_of_lt (lt_of_not_le hle)
        · exact hmin m hm

/-! ### Unfolding lemmas for the outer loop -/

theorem sortLoop_cons_ok {inst : List Ty} {fuel : Nat} {p : Ty × List Ty}
    {gt : Graph} {sorted : List Ty} {sched : List (List Ty)} {g' : Graph}
    {sorted' : List Ty} {ac : Bool}
    (h : runPass inst (mkOrder sched.headI (keysOf (p :: gt))) (p :: gt) sorted false
          = .ok (g', sorted', ac)) :
    sortLoop inst (fuel + 1) (p :: gt) sorted sched =
      (if ac then sortLoop inst fuel g' sorted' sched.tail else .error .cyclic) := by
  simp [sortLoop, h]

theorem sortLoop_cons_error {inst : List Ty} {fuel : Nat} {p : Ty × List Ty}
    {gt : Graph} {sorted : List Ty} {sched : List (List Ty)} {er : Err}
    (h : runPass inst (mkOrder sched.headI (keysOf (p :: gt))) (p :: gt) sorted false
          = .error er) :
    sortLoop inst (fuel + 1) (p :: gt) sorted sched = .error er := by
  simp [sortLoop, h]

/-! ### Correctness of the resolver on complete acyclic inputs -/

theorem sortLoop_spec {g0 : Graph} (hn0 : (keysOf g0).Nodup)
    (hc : Complete g0) (r : Ty → Nat)
    (hr : ∀ p ∈ g0, ∀ d ∈ p.2, r d < r p.1) :
    ∀ (fuel : Nat) (g : Graph) (sorted : List Ty) (sched : List (List Ty)),
      g.length ≤ fuel → SortInv g0 g sorted →
      ∃ out, sortLoop (keysOf g0) fuel g sorted sched = .ok out ∧
        SortInv g0 [] out := by
  intro fuel
  induction fuel with
  | zero =>
    intro g sorted sched hle inv
    cases g with
    | nil => exact ⟨sorted, rfl, inv⟩
    | cons p gt => simp at hle
  | succ fuel ih =>
    intro g sorted sched hle inv
    cases g with
    | nil => exact ⟨sorted, rfl, inv⟩
    | cons p gt =>
      have hinst : ∀ q ∈ (p :: gt), ∀ d ∈ q.2, d ∈ keysOf g0 :=
        fun q hq d hd => hc q (inv.sub q hq) d hd
      have hne : keysOf (p :: gt) ≠ [] := by simp [keysOf]
      obtain ⟨n, hnmem, hmin⟩ := exists_min_image hne r
      obtain ⟨ds, hl⟩ := Option.isSome_iff_exists.mp (lookupG_isSome_iff.mpr hnmem)
      have hds : ∀ d ∈ ds, lookupG (p :: gt) d = none := by
        intro d hd
        rw [lookupG_eq_none_iff]
        intro hdk
        have h1 : (n, ds) ∈ g0 := inv.sub _ (lookupG_mem hl)
        exact absurd (hmin d hdk) (not_le_of_lt (hr _ h1 d hd))
      obtain ⟨g', sorted', hpass⟩ :=
        @runPass_progress (keysOf g0) (mkOrder sched.headI (keysOf (p :: gt))) n ds
          (p :: gt) sorted false hinst (mem_mkOrder_of_mem hnmem) hl hds
      have inv' := runPass_inv hn0 inv hpass
      have hlt : g'.length < (p :: gt).length := (runPass_shrink hpass).2 rfl
      obtain ⟨out, hout, hfin⟩ := ih g' sorted' sched.tail (by omega) inv'
      refine ⟨out, ?_, hfin⟩
      rw [sortLoop_cons_ok hpass, if_pos rfl]
      exact hout

theorem perm_of_nodup_mem_iff {l1 l2 : List Ty} (h1 : l1.Nodup) (h2 : l2.Nodup)
    (h : ∀ t, t ∈ l1 ↔ t ∈ l2) : l1.Perm l2 := by
  rw [List.perm_iff_count]
  intro a
  by_cases ha : a ∈ l1
  · rw [List.count_eq_one_of_mem h1 ha, List.count_eq_one_of_mem h2 ((h a).mp ha)]
  · rw [List.count_eq_zero_of_not_mem ha,
      List.count_eq_zero_of_not_mem (fun hb => ha ((h a).mpr hb))]

theorem topo_spec {g : Graph} (hn : (keysOf g).Nodup) (hc : Complete g)
    (hac : AcyclicRank g) (sched : List (List Ty)) :
    ∃ out, topoSortModules g sched = .ok out ∧
      (∀ t, t ∈ out ↔ t ∈ keysOf g) ∧ out.Nodup ∧
      ∀ p ∈ g, ∀ d ∈ p.2, Precedes out d p.1 := by
  obtain ⟨r, hr⟩ := hac
  obtain ⟨out, hout, hfin⟩ :=
    sortLoop_spec hn hc r hr g.length g [] sched (le_refl _) (SortInv.init hn)
  refine ⟨out, hout, ?_, hfin.ns, ?_⟩
  · intro t
    have hcov := hfin.cover t
    constructor
    · intro hto
      exact (hcov.mpr (Or.inr hto) : _)
    · intro htk
      rcases hcov.mp htk with h | h
      · exact absurd h (by simp [keysOf])
      · exact h
  · intro p hp d hd
    have hmem : p.1 ∈ keysOf g := List.mem_map.mpr ⟨p, hp, rfl⟩
    have hout1 : p.1 ∈ out := by
      rcases (hfin.cover p.1).mp hmem with h | h
      · exact absurd h (by simp [keysOf])
      · exact h
    exact hfin.topo p.1 hout1 p.2 (by rwa [Prod.mk.eta]) d hd

/-! ### Claim C1 -/

/-- Claim C1, confirmed: for every installed module set with distinct
identities whose declared dependencies are all installed and whose
dependency graph is acyclic, `topoSortModules` succeeds — under every map
iteration schedule — with a sequence containing every installed module
exactly once (a permutation of the key set), in which every declared
dependency precedes its dependent. -/
theorem claim1_topoSortModules_dag_correct (g : Graph) (sched : List (List Ty))
    (hn : (keysOf g).Nodup) (hc : Complete g) (hac : AcyclicRank g) :
    ∃ out, topoSortModules g sched = .ok out ∧ out.Perm (keysOf g) ∧
      ∀ p ∈ g, ∀ d ∈ p.2, Precedes out d p.1 := by
  obtain ⟨out, h1, h2, h3, h4⟩ := topo_spec hn hc hac sched
  exact ⟨out, h1, perm_of_nodup_mem_iff h3 hn h2, h4⟩

/-- Witness for the C1 theorem: the two-module chain `1 → 0`. -/
theorem claim1_topoSortModules_dag_correct_witness :
    ∃ out, topoSortModules [(0, []), (1, [0])] [] = .ok out ∧
      out.Perm (keysOf [(0, []), (1, [0])]) ∧
      ∀ p ∈ ([(0, []), (1, [0])] : Graph), ∀ d ∈ p.2, Precedes out d p.1 :=
  claim1_topoSortModules_dag_correct [(0, []), (1, [0])] []
    (by simp [keysOf])
    (by simp only [Complete]; decide)
    ⟨fun t => t, by decide⟩

/-- Claim C9, amended: resolution is deterministic only up to reordering of
modules with no mutual ordering constraint — for any two map-iteration
schedules the resolver succeeds and the two outputs are permutations of one
another (each containing every installed module exactly once and respecting
the dependency edges), but the sequences themselves may differ. -/
theorem claim9_resolution_deterministic_up_to_order (g : Graph)
    (sched1 sched2 : List (List Ty)) (hn : (keysOf g).Nodup) (hc : Complete g)
    (hac : AcyclicRank g) :
    ∃ out1 out2, topoSortModules g sched1 = .ok out1 ∧
      topoSortModules g sched2 = .ok out2 ∧ out1.Perm out2 := by
  obtain ⟨o1, h1, m1, n1, -⟩ := topo_spec hn hc hac sched1
  obtain ⟨o2, h2, m2, n2, -⟩ := topo_spec hn hc hac sched2
  exact ⟨o1, o2, h1, h2,
    perm_of_nodup_mem_iff n1 n2 (fun t => (m1 t).trans (m2 t).symm)⟩

/-- Witness for the amended C9 theorem: two independent modules under the
two possible iteration orders. -/
theorem claim9_resolution_deterministic_up_to_order_witness :
    ∃ out1 out2, topoSortModules [(0, []), (1, [])] [[0, 1]] = .ok out1 ∧
      topoSortModules [(0, []), (1, [])] [[1, 0]] = .ok out2 ∧ out1.Perm out2 :=
  claim9_resolution_deterministic_up_to_order [(0, []), (1, [])] [[0, 1]] [[1, 0]]
    (by simp [keysOf])
    (by simp only [Complete]; decide)
    ⟨fun t => t, by decide⟩

/-! ### Cycles block the peel -/

theorem chain_mem_succ {R : Ty → Ty → Prop} :
    ∀ (l : List Ty) (a z : Ty), List.Chain R a (l ++ [z]) →
      ∀ s ∈ a :: l, ∃ d ∈ a :: (l ++ [z]), R s d := by
  intro l
  induction l with
  | nil =>
    intro a z hch s hs
    rcases List.mem_singleton.mp hs with rfl
    cases hch with
    | cons h _ => exact ⟨z, by simp, h⟩
  | cons x l' ih =>
    intro a z hch s hs
    cases hch with
    | cons hax hch' =>
      rcases List.mem_cons.mp hs with rfl | hs'
      · exact ⟨x, by simp, hax⟩
      · obtain ⟨d, hd, hR⟩ := ih x z hch' s hs'
        refine ⟨d, ?_, hR⟩
        simp only [List.mem_cons, List.mem_append, List.mem_singleton] at hd ⊢
        tauto

theorem blocked_of_cycle {g : Graph} (h : HasCycle g) :
    ∃ S, S ≠ [] ∧ (∀ s ∈ S, s ∈ keysOf g) ∧ Blocked g S := by
  obtain ⟨t, ts, hch⟩ := h
  have key : ∀ s ∈ t :: ts, ∃ ds, lookupG g s = some ds ∧ ∃ d ∈ ds, d ∈ t :: ts := by
    intro s hs
    obtain ⟨d, hd, hR⟩ := chain_mem_succ ts t t hch s hs
    simp only [edgeG] at hR
    cases hls : lookupG g s with
    | none =>
      rw [hls] at hR
      simp at hR
    | some ds =>
      rw [hls] at hR
      refine ⟨ds, rfl, d, by simpa using hR, ?_⟩
      simp only [List.mem_cons, List.mem_append, List.mem_singleton,
        List.not_mem_nil, or_false] at hd
      rcases hd with rfl | hmem | rfl
      · exact List.mem_cons_self _ _
      · exact List.mem_cons_of_mem _ hmem
      · exact List.mem_cons_self _ _
  refine ⟨t :: ts, by simp, ?_, key⟩
  intro s hs
  obtain ⟨ds, hds, -⟩ := key s hs
  exact lookupG_isSome_iff.mp (by rw [hds]; rfl)

theorem sortLoop_cyclic {inst : List Ty} {S : List Ty} (hS : S ≠ []) :
    ∀ (fuel : Nat) (g : Graph) (sorted : List Ty) (sched : List (List Ty)),
      g.length ≤ fuel →
      (∀ p ∈ g, ∀ d ∈ p.2, d ∈ inst) →
      (∀ s ∈ S, s ∈ keysOf g) → Blocked g S →
      sortLoop inst fuel g sorted sched = .error .cyclic := by
  intro fuel
  induction fuel with
  | zero =>
    intro g sorted sched hle hinst hSk hbl
    cases g with
    | nil =>
      obtain ⟨s, hs⟩ := List.exists_mem_of_ne_nil S hS
      exact absurd (hSk s hs) (List.not_mem_nil s)
    | cons p gt => simp at hle
  | succ fuel ih =>
    intro g sorted sched hle hinst hSk hbl
    cases g with
    | nil =>
      obtain ⟨s, hs⟩ := List.exists_mem_of_ne_nil S hS
      exact absurd (hSk s hs) (List.not_mem_nil s)
    | cons p gt =>
      obtain ⟨⟨g', sorted', ac⟩, hpass⟩ :=
        @runPass_ok_of_inst inst (mkOrder sched.headI (keysOf (p :: gt)))
          (p :: gt) sorted false hinst
      have hbl' := runPass_preserves_blocked hbl hpass
      have hSk' : ∀ s ∈ S, s ∈ keysOf g' := by
        intro s hs
        obtain ⟨ds, hds, -⟩ := hbl' s hs
        exact lookupG_isSome_iff.mp (by rw [hds]; rfl)
      rw [sortLoop_cons_ok hpass]
      cases ac
      · rw [if_neg (by simp)]
      · rw [if_pos rfl]
        have hlt : g'.length < (p :: gt).length := (runPass_shrink hpass).2 rfl
        exact ih g' sorted' sched.tail (by omega)
          (fun q hq d hd => hinst q (runPass_sub hpass q hq) d hd) hSk' hbl'

/-! ### Claim C4 -/

/-- Claim C4, counterexample: on the two-module cycle `0 ↔ 1` resolution
does fail before configure, but the error is the bare `"cyclic module
dependency"` message, which names no module at all — not the implicated
module set `{0, 1}` the claim requires. -/
theorem claim4_counterexample :
    topoSortModules [(0, [1]), (1, [0])] [] = .error .cyclic ∧
    errNames Err.cyclic = [] ∧
    ¬ (0 ∈ errNames Err.cyclic ∧ 1 ∈ errNames Err.cyclic) := by
  exact ⟨rfl, rfl, by decide⟩

/-- Claim C4, amended: for every installed module set with distinct
identities and all declared dependencies installed whose graph contains a
cycle, resolution fails — under every map iteration schedule — with the
cyclic-dependency error before any configure capability runs (the
second-generation `RunWithArgs` returns the resolver error with an empty
trace); the error however does not name the implicated modules. -/
theorem claim4_cycle_fails_before_configure (reg : Registry)
    (sched : List (List Ty)) (parseOk runOk : Bool)
    (hc : Complete (registryGraph reg)) (hcy : HasCycle (registryGraph reg)) :
    topoSortModules (registryGraph reg) sched = .error .cyclic ∧
    RunWithArgs2 reg sched parseOk runOk = ([], .resolveErr .cyclic) ∧
    errNames Err.cyclic = [] := by
  obtain ⟨S, hS, hSk, hbl⟩ := blocked_of_cycle hcy
  have htopo : topoSortModules (registryGraph reg) sched = .error .cyclic := by
    apply sortLoop_cyclic hS _ _ _ _ (le_refl _) _ hSk hbl
    intro p hp d hd
    exact hc p hp d hd
  refine ⟨htopo, ?_, rfl⟩
  simp [RunWithArgs2, htopo]

/-- Witness for the amended C4 theorem: the two-module cycle. -/
theorem claim4_cycle_fails_before_configure_witness :
    topoSortModules (registryGraph [({ modOk with deps := [1] }, [1]),
        ({ modStartFail with deps := [0] }, [0])]) [] = .error .cyclic ∧
    RunWithArgs2 [({ modOk with deps := [1] }, [1]),
        ({ modStartFail with deps := [0] }, [0])] [] true true =
      ([], .resolveErr .cyclic) ∧
    errNames Err.cyclic = [] :=
  claim4_cycle_fails_before_configure
    [({ modOk with deps := [1] }, [1]), ({ modStartFail with deps := [0] }, [0])]
    [] true true
    (by simp only [Complete]; decide)
    ⟨0, [1], by simp [List.chain_cons, edgeG, lookupG, registryGraph, modOk,
      modStartFail]⟩

/-! ### A missing dependency forces resolution failure -/

theorem sortLoop_missing {g0 : Graph} {m d : Ty} {ds : List Ty}
    (hdi : d ∉ keysOf g0) (hd : d ∈ ds) :
    ∀ (fuel : Nat) (g : Graph) (sorted : List Ty) (sched : List (List Ty)),
      g.length ≤ fuel → (∀ p ∈ g, p ∈ g0) → lookupG g m = some ds →
      ∃ e, sortLoop (keysOf g0) fuel g sorted sched = .error e ∧
        ∀ d' n', e = .notAvailable d' n' →
          d' ∉ keysOf g0 ∧ ∃ ds', (n', ds') ∈ g0 ∧ d' ∈ ds' := by
  intro fuel
  induction fuel with
  | zero =>
    intro g sorted sched hle hsub hm
    cases g with
    | nil => cases hm
    | cons p gt => simp at hle
  | succ fuel ih =>
    intro g sorted sched hle hsub hm
    cases g with
    | nil => cases hm
    | cons p gt =>
      rcases hpass : runPass (keysOf g0) (mkOrder sched.headI (keysOf (p :: gt)))
          (p :: gt) sorted false with er | ⟨g', sorted', ac⟩
      · refine ⟨er, sortLoop_cons_error hpass, ?_⟩
        intro d' n' heq
        obtain ⟨d0, n0, ds0, he0, hni, hmem, hds0⟩ := runPass_error_sound hpass
        rw [heq] at he0
        cases he0
        exact ⟨hni, ds0, hsub _ hmem, hds0⟩
      · cases ac
        · refine ⟨.cyclic, ?_, ?_⟩
          · rw [sortLoop_cons_ok hpass, if_neg (by simp)]
          · intro d' n' heq
            cases heq
        · have hm' : lookupG g' m = some ds :=
            runPass_preserves_stuck hdi hd hm hpass
          have hlt : g'.length < (p :: gt).length := (runPass_shrink hpass).2 rfl
          obtain ⟨e, he, hsound⟩ := ih g' sorted' sched.tail (by omega)
            (fun q hq => hsub q (runPass_sub hpass q hq)) hm'
          refine ⟨e, ?_, hsound⟩
          rw [sortLoop_cons_ok hpass, if_pos rfl]
          exact he

/-! ### Claim C3 -/

/-- Claim C3, counterexample: module 0 declares the missing dependency 9,
but because module 0 also sits on a cycle with module 1 (scanned before the
missing edge), resolution fails with the cyclic error, whose message
reports no identity at all — not the promised missing-dependency report. -/
theorem claim3_counterexample :
    topoSortModules [(0, [1, 9]), (1, [0])] [] = .error .cyclic ∧
    (9 ∉ keysOf [(0, [1, 9]), (1, [0])]) ∧
    (9 ∈ ([1, 9] : List Ty)) ∧
    errNames Err.cyclic = [] :=
  ⟨rfl, by decide, by decide, rfl⟩

/-- Claim C3, amended: whenever some installed module declares a dependency
whose identity is not installed, resolution fails under every map iteration
schedule (so no Configure or Start capability is ever invoked — the
second-generation `RunWithArgs` returns the resolver error with an empty
trace); when the reported error is the missing-dependency error, it
correctly names a genuinely missing identity together with the module that
declared it, but in graphs that also contain a cycle the failure may be
the cyclic error instead. -/
theorem claim3_missing_dep_resolution_fails (reg : Registry)
    (sched : List (List Ty)) (parseOk runOk : Bool) (m d : Ty) (ds : List Ty)
    (hm : lookupG (registryGraph reg) m = some ds) (hd : d ∈ ds)
    (hdi : d ∉ keysOf (registryGraph reg)) :
    ∃ e, topoSortModules (registryGraph reg) sched = .error e ∧
      RunWithArgs2 reg sched parseOk runOk = ([], .resolveErr e) ∧
      ∀ d' n', e = .notAvailable d' n' →
        d' ∉ keysOf (registryGraph reg) ∧
        ∃ ds', (n', ds') ∈ registryGraph reg ∧ d' ∈ ds' := by
  obtain ⟨e, he, hsound⟩ := sortLoop_missing hdi hd (registryGraph reg).length
    (registryGraph reg) [] sched (le_refl _) (fun p hp => hp) hm
  have he' : topoSortModules (registryGraph reg) sched = .error e := he
  exact ⟨e, he', by simp [RunWithArgs2, he'], hsound⟩

/-- Witness for the amended C3 theorem: a single module (identity 0)
declaring the missing dependency 9. -/
theorem claim3_missing_dep_resolution_fails_witness :
    topoSortModules
        (registryGraph [({ modOk with hasDeps := true, deps := [9] }, [9])]) [] =
      .error (.notAvailable 9 0) ∧
    RunWithArgs2 [({ modOk with hasDeps := true, deps := [9] }, [9])] [] true true =
      ([], .resolveErr (.notAvailable 9 0)) := by
  obtain ⟨e, he, hrun, -⟩ := claim3_missing_dep_resolution_fails
    [({ modOk with hasDeps := true, deps := [9] }, [9])] [] true true 0 9 [9]
    (by decide) (by decide) (by decide)
  have h2 : topoSortModules
      (registryGraph [({ modOk with hasDeps := true, deps := [9] }, [9])]) [] =
      .error (.notAvailable 9 0) := rfl
  rw [he] at h2
  injection h2 with h3
  subst h3
  exact ⟨he, hrun⟩

/-! ### Claim C6, amended part -/

theorem isStart_of_config {e : Event} (h : isConfigEvent e = true) :
    isStart e = false := by
  cases e <;> simp_all [isConfigEvent, isStart]

theorem notBind_of_config {e : Event} (h : isConfigEvent e = true) :
    (e == Event.bindCommand) = false := by
  cases e <;> simp_all [isConfigEvent]

theorem notBind_of_start {e : Event} (h : isStart e = true) :
    (e == Event.bindCommand) = false := by
  cases e <;> simp_all [isStart]

theorem bind_not_mem_of_config (ms : List Mod) :
    Event.bindCommand ∉ (configPhase1 ms).1 := by
  intro h
  have := notBind_of_config (mem_of_all_eq_true (configPhase1_shape ms) h)
  simp at this

theorem bind_not_mem_of_config2 (ms : List Mod) :
    Event.bindCommand ∉ (configPhase2 ms).1 := by
  intro h
  have := notBind_of_config (mem_of_all_eq_true (configPhase2_shape ms) h)
  simp at this

theorem bind_not_mem_of_start (ms : List Mod) :
    Event.bindCommand ∉ (startPhase ms).1 := by
  intro h
  have := notBind_of_start (mem_of_all_eq_true (startPhase_shape ms) h)
  simp at this

theorem bind_not_mem_of_stop (ms : List Mod) :
    Event.bindCommand ∉ stopPhase ms := by
  intro h
  have := mem_of_all_eq_true (stopPhase_shape ms) h
  simp [isStop] at this

theorem takeWhile_append_of_all {p : Event → Bool} {l l' : List Event}
    (h : ∀ e ∈ l, p e = true) :
    (l ++ l').takeWhile p = l ++ l'.takeWhile p := by
  induction l with
  | nil => rfl
  | cons e l ih =>
    simp [List.takeWhile_cons, h e (List.mem_cons_self _ _),
      ih fun x hx => h x (List.mem_cons_of_mem _ hx)]

theorem RunWithArgs2_run_eq {reg : Registry} {sched : List (List Ty)}
    {runOk : Bool} {order : List Ty}
    (ht : topoSortModules (registryGraph reg) sched = .ok order)
    (h2 : (configPhase2 (resolvedMods reg order)).2 = none)
    (h3 : (startPhase (resolvedMods reg order)).2 = none) :
    RunWithArgs2 reg sched true runOk =
      ((configPhase2 (resolvedMods reg order)).1 ++ [.parse] ++
        (startPhase (resolvedMods reg order)).1 ++ [.bindCommand, .runApp],
       if runOk then Res.ok else Res.runErr) := by
  simp only [RunWithArgs2, ht, h2, h3, if_true]

/-- Claim C6, amended: `SelectedCommand` is bound exactly once,
synchronously after argument parsing succeeds — but its position relative
to the start phase differs between the two generations of `RunWithArgs`:
the first-generation version binds it immediately after parsing, before
any module Start runs (the original claim); the second-generation
(dependency-resolving) version binds it only after the whole start phase,
immediately before the entry point is invoked, so there it is available
to the run phase but not to module Start capabilities. -/
theorem claim6_selectedCommand_bind_position
    (installed : List Mod) (entry : Mod)
    (h1 : entry.hasStart = true)
    (h2 : (configPhase1 (installed ++ [entry])).2 = none)
    (h3 : (startPhase installed).2 = none)
    (reg : Registry) (sched : List (List Ty)) (runOk : Bool) (order : List Ty)
    (ht : topoSortModules (registryGraph reg) sched = .ok order)
    (h4 : (configPhase2 (resolvedMods reg order)).2 = none)
    (h5 : (startPhase (resolvedMods reg order)).2 = none) :
    ((RunWithArgs1 installed entry true).1.count Event.bindCommand = 1 ∧
      noStartBeforeBind (RunWithArgs1 installed entry true).1 = true) ∧
    ((RunWithArgs2 reg sched true runOk).1.count Event.bindCommand = 1 ∧
      ∃ pre, (RunWithArgs2 reg sched true runOk).1 =
          pre ++ [Event.bindCommand, Event.runApp] ∧
        Event.bindCommand ∉ pre ∧ Event.parse ∈ pre ∧
        ∀ t, Event.start t ∈ (RunWithArgs2 reg sched true runOk).1 →
          Event.start t ∈ pre) := by
  constructor
  · rw [RunWithArgs1_run_eq h1 h2 h3]
    constructor
    · simp only [List.append_assoc, List.count_append]
      rw [List.count_eq_zero.mpr (bind_not_mem_of_config (installed ++ [entry])),
        List.count_eq_zero.mpr (bind_not_mem_of_start installed),
        List.count_eq_zero.mpr (bind_not_mem_of_stop installed)]
      rfl
    · have hall : ∀ e ∈ (configPhase1 (installed ++ [entry])).1,
          (fun e => !(e == Event.bindCommand)) e = true := by
        intro e he
        simp [notBind_of_config (mem_of_all_eq_true (configPhase1_shape _) he)]
      rw [noStartBeforeBind]
      simp only [List.append_assoc]
      rw [takeWhile_append_of_all hall]
      rw [show ([Event.parse, Event.bindCommand] ++
        ((startPhase installed).1 ++ ([Event.runApp] ++ stopPhase installed))).takeWhile
          (fun e => !(e == Event.bindCommand)) = [Event.parse] from rfl]
      rw [List.all_append, Bool.and_eq_true]
      constructor
      · rw [List.all_eq_true]
        intro e he
        simp [isStart_of_config (mem_of_all_eq_true (configPhase1_shape _) he)]
      · rfl
  · rw [RunWithArgs2_run_eq ht h4 h5]
    constructor
    · simp only [List.append_assoc, List.count_append]
      rw [List.count_eq_zero.mpr (bind_not_mem_of_config2 (resolvedMods reg order)),
        List.count_eq_zero.mpr (bind_not_mem_of_start (resolvedMods reg order))]
      rfl
    · refine ⟨(configPhase2 (resolvedMods reg order)).1 ++ [Event.parse] ++
        (startPhase (resolvedMods reg order)).1, by simp [List.append_assoc], ?_, ?_, ?_⟩
      · intro hmem
        simp only [List.mem_append, List.mem_singleton, reduceCtorEq, or_false] at hmem
        rcases hmem with h | h
        · exact bind_not_mem_of_config2 _ h
        · exact bind_not_mem_of_start _ h
      · simp
      · intro t hmem
        simp only [List.mem_append, List.mem_cons, List.mem_singleton,
          reduceCtorEq, or_false, false_or] at hmem ⊢
        rcases hmem with h | h
        · exact h
        · simp at h

/-- Witness for the amended C6 theorem at concrete inputs for both
generations. -/
theorem claim6_selectedCommand_bind_position_witness :
    ((RunWithArgs1 [modOk] modEntry true).1.count Event.bindCommand = 1 ∧
      noStartBeforeBind (RunWithArgs1 [modOk] modEntry true).1 = true) ∧
    ((RunWithArgs2 [(modOk, [])] [] true true).1.count Event.bindCommand = 1 ∧
      ∃ pre, (RunWithArgs2 [(modOk, [])] [] true true).1 =
          pre ++ [Event.bindCommand, Event.runApp] ∧
        Event.bindCommand ∉ pre ∧ Event.parse ∈ pre ∧
        ∀ t, Event.start t ∈ (RunWithArgs2 [(modOk, [])] [] true true).1 →
          Event.start t ∈ pre) :=
  claim6_selectedCommand_bind_position [modOk] modEntry (by decide) (by decide)
    (by decide) [(modOk, [])] [] true [0] rfl (by decide) (by decide)

end AppModel
